import Mathlib

/-!
Verification of the DTR repository-access auditor.

The development shallowly embeds the Go sources (`auditor.go`, `types.go`,
`util.go`, the request helpers and `main`) as pure Lean functions.  Go maps
(`map[string]*User`, `map[string]*Org`, `map[string]Repo`) become association
lists with a replace-or-append update, pointer mutation becomes functional
update written back into the map, and the HTTP fetchers become an explicit
`DataSource` record of fallible inputs (the transport layer itself is out of
scope; each fetcher returns either the decoded list or an error string).
Stage functions return `Except String Auditor` exactly like the Go stage
functions return `error`.
-/

namespace DTRAudit

/-- Modelled from the spec: the ordered access-level scalar.  `types.go` uses a
type `Access` (field `Level Access`, comparison `existing.Level > r.Level`,
constant `Admin`) whose defining file is not present under `src/`; the spec
fixes it as an enumerated value totally ordered `Read < Write < Admin`. -/
inductive Access
  | Read
  | Write
  | Admin
deriving DecidableEq, Repr

/-- Numeric rank of an access level, realising the order Read < Write < Admin
used by the Go integer comparison on `Access`. -/
def Access.toNat : Access → Nat
  | .Read => 0
  | .Write => 1
  | .Admin => 2

/-- A Go `map[string]α`, embedded as an association list whose keys are kept
unique by `Map.set`. -/
abbrev Map (α : Type) : Type := List (String × α)

/-- Go map lookup `m[k]` (the `v, ok := m[k]` form). -/
def Map.find {α : Type} : Map α → String → Option α
  | [], _ => none
  | (k, v) :: rest, key => if k = key then some v else Map.find rest key

/-- Go map assignment `m[k] = v`: replaces the binding when the key is present,
otherwise appends a fresh binding. -/
def Map.set {α : Type} : Map α → String → α → Map α
  | [], key, val => [(key, val)]
  | (k, v) :: rest, key, val =>
    if k = key then (key, val) :: rest else (k, v) :: Map.set rest key val

/-- The key set of an embedded Go map. -/
def Map.keys {α : Type} (m : Map α) : List String := m.map Prod.fst

/-- `types.go`: account-type and visibility string constants. -/
def AccountTypeOrg : String := "organization"

/-- `types.go`: the user account-type constant. -/
def AccountTypeUser : String := "user"

/-- `types.go`: visibility constant for public repositories. -/
def VisibilityPublic : String := "public"

/-- `types.go`: visibility constant for private repositories. -/
def VisibilityPrivate : String := "private"

/-- `types.go` `Repo`: an individual repository, including access level,
visibility, and the owning account's name and type. -/
structure Repo where
  ID : String
  Name : String
  Visibility : String
  Level : Access
  AccountName : String
  AccountType : String
deriving DecidableEq, Repr

/-- `types.go` `TeamRepo`: a repository a team can access; the API reports the
access level as a top-level field next to the repository. -/
structure TeamRepo where
  Repo : Repo
  Level : Access
deriving DecidableEq, Repr

/-- `types.go` `Account`: one entry of the full account listing. -/
structure Account where
  ID : String
  Name : String
  IsOrg : Bool
  IsAdmin : Bool
deriving DecidableEq, Repr

/-- `types.go` `Team`: a team within an organization. -/
structure Team where
  ID : String
  Name : String
  Users : List Account
  Repos : List Repo
deriving DecidableEq, Repr

/-- `types.go` `Org`: an organization within DTR. -/
structure Org where
  ID : String
  Name : String
  Teams : List Team
deriving DecidableEq, Repr

/-- `types.go` `User`: an individual user together with the map from repository
name to the repository (carrying the user's access level on it). -/
structure User where
  ID : String
  Name : String
  IsAdmin : Bool
  Repos : Map Repo
deriving DecidableEq, Repr

/-- `types.go` `TeamMember`: wrapper for one member of a team. -/
structure TeamMember where
  User : User
deriving DecidableEq, Repr

/-- `types.go` `(*User).AddRepo`: keep the existing repository when its level
is strictly greater than the incoming one, otherwise store the incoming
repository (Go: `if existing.Level > r.Level { return }; u.Repos[r.Name] = r`). -/
def User.AddRepo (u : User) (r : Repo) : User :=
  match Map.find u.Repos r.Name with
  | some existing =>
    if Access.toNat r.Level < Access.toNat existing.Level then u
    else { u with Repos := Map.set u.Repos r.Name r }
  | none => { u with Repos := Map.set u.Repos r.Name r }

/-- The five fetchers of the request layer, abstracted over the transport:
each either returns the decoded payload or fails with an error string, exactly
as the Go fetch helpers return `(T, error)`. -/
structure DataSource where
  fetchAllRepos : Except String (List Repo)
  fetchTeamsForOrg : String → Except String (List Team)
  fetchReposForTeam : String → String → Except String (List TeamRepo)
  fetchMembersForTeam : String → String → Except String (List TeamMember)
  fetchAccounts : Except String (List Account)

/-- `auditor.go` `Auditor`: the mutable audit state.  The basic-auth header and
host are omitted: they only parameterise the transport, which is abstracted by
`DataSource`. -/
structure Auditor where
  Users : Map User
  Orgs : Map Org
  publicRepos : List Repo
deriving DecidableEq, Repr

/-- `auditor.go` `NewAuditor`: fresh empty audit state (the Go constructor also
records the host and encoded credentials for the transport, abstracted here). -/
def NewAuditor : Auditor :=
  { Users := [], Orgs := [], publicRepos := [] }

/-- `auditor.go` `auditAllRepos`, org arm: create the owning organization with
only its name if it is not yet known. -/
def ensureOrg (a : Auditor) (name : String) : Auditor :=
  match Map.find a.Orgs name with
  | some _ => a
  | none => { a with Orgs := Map.set a.Orgs name { ID := "", Name := name, Teams := [] } }

/-- `auditor.go` `auditAllRepos`, trailing step of the loop body: a public
repository is appended to the pending public-repository slice. -/
def addPublic (a : Auditor) (r : Repo) : Auditor :=
  if r.Visibility = VisibilityPublic then
    { a with publicRepos := a.publicRepos ++ [r] }
  else a

/-- `auditor.go` `auditAllRepos`, user arm: look up or create the owning user
(new users start with only a name and an empty repo map), then assign the
repository (already stamped Admin) directly into the user's map. -/
def assignOwnedRepo (a : Auditor) (name : String) (r : Repo) : Auditor :=
  match Map.find a.Users name with
  | some user =>
    { a with Users := Map.set a.Users name { user with Repos := Map.set user.Repos r.Name r } }
  | none =>
    { a with Users := Map.set a.Users name { ID := "", Name := name, IsAdmin := false, Repos := Map.set ([] : Map Repo) r.Name r } }

/-- `auditor.go` `auditAllRepos`, loop body for one fetched repository: orgs are
created on sight; a user-owned repository is stamped `Level = Admin` and stored
on the owner; public repositories (the stamped copy in the user arm, since the
Go loop mutates its local `repo` before the visibility check) are collected. -/
def processRepo (a : Auditor) (repo : Repo) : Auditor :=
  if repo.AccountType = AccountTypeOrg then
    addPublic (ensureOrg a repo.AccountName) repo
  else
    addPublic (assignOwnedRepo a repo.AccountName { repo with Level := Access.Admin })
      { repo with Level := Access.Admin }

/-- `auditor.go` `auditAllRepos`: fetch every repository and fold the loop body
over the list (the progress printing is I/O only and not modelled). -/
def auditAllRepos (ds : DataSource) (a : Auditor) : Except String Auditor :=
  match ds.fetchAllRepos with
  | .error e => .error e
  | .ok repos => .ok (List.foldl processRepo a repos)

/-- `auditor.go` `auditTeam`, inner loop body: look up or create the member
(new members start from an empty repo map) and merge the team repository via
`AddRepo`. -/
def processTeamMember (r : Repo) (a : Auditor) (m : TeamMember) : Auditor :=
  match Map.find a.Users m.User.Name with
  | some u => { a with Users := Map.set a.Users m.User.Name (User.AddRepo u r) }
  | none =>
    { a with Users := Map.set a.Users m.User.Name (User.AddRepo { m.User with Repos := [] } r) }

/-- `auditor.go` `auditTeam`, outer loop body: stamp the inner repository with
the team's access level, then offer it to every member. -/
def processTeamRepo (members : List TeamMember) (a : Auditor) (tr : TeamRepo) : Auditor :=
  List.foldl (processTeamMember { tr.Repo with Level := tr.Level }) a members

/-- `auditor.go` `auditTeam`: fetch the team's repositories and members, then
run the nested loops. -/
def auditTeam (ds : DataSource) (orgName : String) (team : Team) (a : Auditor) :
    Except String Auditor :=
  match ds.fetchReposForTeam orgName team.Name with
  | .error e => .error e
  | .ok repos =>
    match ds.fetchMembersForTeam orgName team.Name with
    | .error e => .error e
    | .ok users => .ok (List.foldl (processTeamRepo users) a repos)

/-- `auditor.go` `auditOrgs`, inner loop: audit each team in order, wrapping a
failure with the organization's name. -/
def auditTeams (ds : DataSource) (orgName : String) :
    List Team → Auditor → Except String Auditor
  | [], a => .ok a
  | team :: rest, a =>
    match auditTeam ds orgName team a with
    | .error e => .error (s!"error auditing teams for org {orgName}: {e}")
    | .ok a2 => auditTeams ds orgName rest a2

/-- `auditor.go` `auditOrgs`, outer loop over the organization registry (Go
iterates the map in unspecified order; the association-list order is one
admissible order, and stage 2 never mutates the registry it iterates). -/
def auditOrgsList (ds : DataSource) :
    List (String × Org) → Auditor → Except String Auditor
  | [], a => .ok a
  | (orgName, _) :: rest, a =>
    match ds.fetchTeamsForOrg orgName with
    | .error e => .error (s!"error fetching teams for org {orgName}: {e}")
    | .ok teams =>
      match auditTeams ds orgName teams a with
      | .error e => .error e
      | .ok a2 => auditOrgsList ds rest a2

/-- `auditor.go` `auditOrgs`: walk every discovered organization's teams. -/
def auditOrgs (ds : DataSource) (a : Auditor) : Except String Auditor :=
  auditOrgsList ds a.Orgs a

/-- `auditor.go` `auditRemainingAccounts`, loop body: unknown organizations and
users are created; a known user has only its admin flag and identifier
overwritten (a user created here gets the zero-value `nil` repo map, embedded
as the empty map). -/
def processAccount (a : Auditor) (acc : Account) : Auditor :=
  if acc.IsOrg then
    match Map.find a.Orgs acc.Name with
    | some _ => a
    | none => { a with Orgs := Map.set a.Orgs acc.Name { ID := acc.ID, Name := acc.Name, Teams := [] } }
  else
    match Map.find a.Users acc.Name with
    | some u =>
      { a with Users := Map.set a.Users acc.Name { u with IsAdmin := acc.IsAdmin, ID := acc.ID } }
    | none =>
      { a with Users := Map.set a.Users acc.Name { ID := acc.ID, Name := acc.Name, IsAdmin := acc.IsAdmin, Repos := [] } }

/-- `auditor.go` `auditRemainingAccounts`: fetch the full account listing and
fold the loop body over it. -/
def auditRemainingAccounts (ds : DataSource) (a : Auditor) : Except String Auditor :=
  match ds.fetchAccounts with
  | .error e => .error e
  | .ok accts => .ok (List.foldl processAccount a accts)

/-- `auditor.go` `Run`: the three-stage chain; the first failing stage's error
is returned and the remaining stages are not attempted. -/
def Run (ds : DataSource) (a : Auditor) : Except String Auditor :=
  match auditAllRepos ds a with
  | .error e => .error e
  | .ok a1 =>
    match auditOrgs ds a1 with
    | .error e => .error e
    | .ok a2 => auditRemainingAccounts ds a2

/-- Outcome of `main`: either a nonzero exit with an error message and no
report, or the serialized final auditor state. -/
inductive MainResult
  | failure (msg : String)
  | report (a : Auditor)
deriving DecidableEq, Repr

/-- Process exit status of a `main` outcome (`os.Exit(1)` on failure). -/
def MainResult.exitCode : MainResult → Nat
  | .failure _ => 1
  | .report _ => 0

/-- `main.go` `main`: run the auditor from a fresh state; on error print the
error and exit nonzero without a report, otherwise emit the marshalled state. -/
def mainGo (ds : DataSource) : MainResult :=
  match Run ds NewAuditor with
  | .error e => .failure e
  | .ok a => .report a

/-- The final auditor state of a successful run (used to name concrete run
results in closed statements). -/
def runResult (ds : DataSource) : Auditor :=
  match Run ds NewAuditor with
  | .ok a => a
  | .error _ => NewAuditor

/-! ### Primitive mutation steps and the preservation invariant

Each stage of the pipeline is a fold of one of the three loop bodies
(`processRepo`, `processTeamMember`, `processAccount`) over fetched input, so
every intermediate audit state of a run is reached from an earlier one by a
chain of these primitive steps. -/

/-- One primitive mutation of the audit state: a single iteration of the stage
1, stage 2, or stage 3 loop body. -/
inductive AuditStep : Auditor → Auditor → Prop
  | repo (s : Auditor) (r : Repo) : AuditStep s (processRepo s r)
  | member (s : Auditor) (r : Repo) (m : TeamMember) : AuditStep s (processTeamMember r s m)
  | account (s : Auditor) (acc : Account) : AuditStep s (processAccount s acc)

/-- Reachability of one audit state from another by primitive mutation steps. -/
def Steps (s t : Auditor) : Prop := Relation.ReflTransGen AuditStep s t

/-- Preservation invariant between two audit states: every user record stays
present with its name intact and each accumulated repository entry at the same
or a higher level, every organization record stays present unchanged, and
uniqueness of the user keys is preserved. -/
def Preserved (s t : Auditor) : Prop :=
  (∀ n u, Map.find s.Users n = some u → ∃ v, Map.find t.Users n = some v ∧
    v.Name = u.Name ∧
    ∀ rn r, Map.find u.Repos rn = some r → ∃ q, Map.find v.Repos rn = some q ∧
      Access.toNat r.Level ≤ Access.toNat q.Level) ∧
  (∀ n o, Map.find s.Orgs n = some o → Map.find t.Orgs n = some o) ∧
  ((Map.keys s.Users).Nodup → (Map.keys t.Users).Nodup)

/-- The owner of a user-owned repository holds an entry for it at level Admin. -/
def HasAdminEntry (s : Auditor) (name rn : String) : Prop :=
  ∃ u r, Map.find s.Users name = some u ∧ Map.find u.Repos rn = some r ∧
    r.Level = Access.Admin

/-- Every stored organization record carries an empty identifier. -/
def OrgsIdEmpty (s : Auditor) : Prop :=
  ∀ n o, Map.find s.Orgs n = some o → o.ID = ""


/-- The final auditor state of a successful run started from an arbitrary
state (on a failing run this is the start state; only used on succeeding runs). -/
def runFrom (ds : DataSource) (a : Auditor) : Auditor :=
  match Run ds a with
  | .ok b => b
  | .error _ => a

/-! ### The retry helper and the request wrapper (`util.go` and the request file) -/

/-- `util.go`: delay between retry attempts, in seconds (`5 * time.Second`). -/
def retrySleepSeconds : Nat := 5

/-- Observable behaviour of one `retry` invocation: how many times the wrapped
function was called, how many pauses of `retrySleepSeconds` seconds were taken,
and the returned error (`none` is Go `nil`). -/
structure RetryTrace where
  calls : Nat
  waits : Nat
  result : Option String
deriving DecidableEq, Repr

/-- `util.go` `retry`, loop state: `fuel` iterations remain, `i` is the index
of the next call, `calls` and `waits` count the activity so far and `last` is
the last trapped error.  Each iteration calls `f`; success returns
immediately, failure pauses five seconds and continues; when the loop ends the
last error is returned. -/
def retryLoop (f : Nat → Option String) :
    Nat → Nat → Nat → Nat → Option String → RetryTrace
  | 0, _, calls, waits, last => ⟨calls, waits, last⟩
  | fuel + 1, i, calls, waits, _ =>
    match f i with
    | none => ⟨calls + 1, waits, none⟩
    | some e => retryLoop f fuel (i + 1) (calls + 1) (waits + 1) (some e)

/-- `util.go` `retry`: three loop iterations starting from no activity (the
stateful Go closure is modelled as the sequence `f 0, f 1, f 2, ...` of the
results of its successive invocations). -/
def retry (f : Nat → Option String) : RetryTrace := retryLoop f 3 0 0 0 none

/-- A decoded HTTP response, as far as the auditor inspects it. -/
structure HttpResponse where
  StatusCode : Nat
deriving DecidableEq, Repr

/-- The error message produced for a response status outside the 2xx range. -/
def statusCodeError (url : String) (code : Nat) : String :=
  s!"unexpected status code requesting uri {url}: {code}"

/-- The closure the request wrapper passes to `retry`: perform the transport
round-trip (the result of attempt `i` is `transport i`); a transport error is
returned as-is, and a response with status code below 200 or above 299 becomes
an error as well. -/
def doAttempt (url : String) (transport : Nat → Except String HttpResponse)
    (i : Nat) : Option String :=
  match transport i with
  | .error e => some e
  | .ok resp =>
    if resp.StatusCode < 200 ∨ 299 < resp.StatusCode then
      some (statusCodeError url resp.StatusCode)
    else none

/-- The request wrapper Go calls `do` (renamed: `do` is reserved in Lean): it
adds the authorization header (a transport detail, not modelled) and runs the
attempt closure through `retry`. -/
def httpDo (url : String) (transport : Nat → Except String HttpResponse) : RetryTrace :=
  retry (doAttempt url transport)

/-! ### Concrete inputs used by witnesses and counterexamples -/

/-- A private repository owned directly by user `alice`. -/
def repoC1 : Repo :=
  { ID := "1", Name := "alice/proj", Visibility := VisibilityPrivate,
    Level := Access.Read, AccountName := "alice", AccountType := AccountTypeUser }

/-- Input with one user-owned repository and nothing else. -/
def dsC1 : DataSource :=
  { fetchAllRepos := .ok [repoC1],
    fetchTeamsForOrg := fun _ => .ok [],
    fetchReposForTeam := fun _ _ => .ok [],
    fetchMembersForTeam := fun _ _ => .ok [],
    fetchAccounts := .ok [] }

/-- A repository entry held at level Write in a user mapping. -/
def repoC4 : Repo :=
  { ID := "4", Name := "alice/proj", Visibility := VisibilityPrivate,
    Level := Access.Write, AccountName := "alice", AccountType := AccountTypeUser }

/-- A user record already holding `alice/proj` at level Write. -/
def userC4 : User :=
  { ID := "", Name := "alice", IsAdmin := false, Repos := [("alice/proj", repoC4)] }

/-- An intermediate audit state in which `alice` already holds `alice/proj`
at level Write. -/
def a0C4 : Auditor :=
  { Users := [("alice", userC4)], Orgs := [], publicRepos := [] }

/-- Input with no facts at all. -/
def dsC4 : DataSource :=
  { fetchAllRepos := .ok [],
    fetchTeamsForOrg := fun _ => .ok [],
    fetchReposForTeam := fun _ _ => .ok [],
    fetchMembersForTeam := fun _ _ => .ok [],
    fetchAccounts := .ok [] }

/-- A private repository owned by the organization `acme`. -/
def repoC10 : Repo :=
  { ID := "10", Name := "acme/infra", Visibility := VisibilityPrivate,
    Level := Access.Read, AccountName := "acme", AccountType := AccountTypeOrg }

/-- The account-listing entry for `acme`, carrying its identifier. -/
def acctC10 : Account := { ID := "42", Name := "acme", IsOrg := true, IsAdmin := false }

/-- Input where `acme` owns a repository and the account listing carries the
organization identifier. -/
def dsC10 : DataSource :=
  { fetchAllRepos := .ok [repoC10],
    fetchTeamsForOrg := fun _ => .ok [],
    fetchReposForTeam := fun _ _ => .ok [],
    fetchMembersForTeam := fun _ _ => .ok [],
    fetchAccounts := .ok [acctC10] }


/-- A Write-level grant for `acme/infra`. -/
def repoC2w : Repo :=
  { ID := "2", Name := "acme/infra", Visibility := VisibilityPrivate,
    Level := Access.Write, AccountName := "acme", AccountType := AccountTypeOrg }

/-- The same grant at level Admin. -/
def repoC2a : Repo := { repoC2w with Level := Access.Admin }

/-- The same grant at level Read. -/
def repoC2r : Repo := { repoC2w with Level := Access.Read }

/-- A user with an empty permission mapping. -/
def userC2 : User := { ID := "", Name := "bob", IsAdmin := false, Repos := [] }

/-- A user already holding `acme/infra` at level Write. -/
def userC2ex : User :=
  { ID := "", Name := "bob", IsAdmin := false, Repos := [("acme/infra", repoC2w)] }

/-- A repository entry accumulated for user `bob` before stage 3. -/
def repoC7 : Repo :=
  { ID := "7", Name := "bob/x", Visibility := VisibilityPrivate,
    Level := Access.Write, AccountName := "bob", AccountType := AccountTypeUser }

/-- A user record known before stage 3, holding one repository entry. -/
def userC7 : User :=
  { ID := "", Name := "bob", IsAdmin := false, Repos := [("bob/x", repoC7)] }

/-- The authoritative account-listing entry for `bob`. -/
def acctC7 : Account := { ID := "77", Name := "bob", IsOrg := false, IsAdmin := true }

/-- The audit state just before stage 3, with `bob` known. -/
def a0C7 : Auditor := { Users := [("bob", userC7)], Orgs := [], publicRepos := [] }

/-- Input whose account listing carries `bob` with admin flag and identifier. -/
def dsC7 : DataSource :=
  { fetchAllRepos := .ok [], fetchTeamsForOrg := fun _ => .ok [],
    fetchReposForTeam := fun _ _ => .ok [], fetchMembersForTeam := fun _ _ => .ok [],
    fetchAccounts := .ok [acctC7] }

/-- An organization-owned repository used to make stage 2 visit `acme`. -/
def repoC8 : Repo :=
  { ID := "8", Name := "acme/infra", Visibility := VisibilityPrivate,
    Level := Access.Read, AccountName := "acme", AccountType := AccountTypeOrg }

/-- Input failing at stage 1. -/
def dsErr1 : DataSource :=
  { fetchAllRepos := .error "boom1", fetchTeamsForOrg := fun _ => .ok [],
    fetchReposForTeam := fun _ _ => .ok [], fetchMembersForTeam := fun _ _ => .ok [],
    fetchAccounts := .ok [] }

/-- Input failing at stage 2 (the team fetch for `acme` fails). -/
def dsErr2 : DataSource :=
  { fetchAllRepos := .ok [repoC8], fetchTeamsForOrg := fun _ => .error "boom2",
    fetchReposForTeam := fun _ _ => .ok [], fetchMembersForTeam := fun _ _ => .ok [],
    fetchAccounts := .ok [] }

/-- Input failing at stage 3. -/
def dsErr3 : DataSource :=
  { fetchAllRepos := .ok [], fetchTeamsForOrg := fun _ => .ok [],
    fetchReposForTeam := fun _ _ => .ok [], fetchMembersForTeam := fun _ _ => .ok [],
    fetchAccounts := .error "boom3" }

/-- An always-succeeding attempt function. -/
def fC9ok : Nat → Option String := fun _ => none

/-- An always-failing attempt function whose i-th error message is `toString i`. -/
def fC9fail : Nat → Option String := fun i => some (toString i)

/-- A transport whose every attempt yields a 500 response. -/
def transportC9 : Nat → Except String HttpResponse := fun _ => .ok { StatusCode := 500 }


/-- A public repository owned by user `erin`. -/
def repoC3 : Repo :=
  { ID := "3", Name := "pub/tool", Visibility := VisibilityPublic,
    Level := Access.Read, AccountName := "erin", AccountType := AccountTypeUser }

/-- The account-listing entry for `bob`, who owns nothing. -/
def acctC3 : Account := { ID := "b1", Name := "bob", IsOrg := false, IsAdmin := false }

/-- Input with one public user-owned repository and a second known account. -/
def dsC3 : DataSource :=
  { fetchAllRepos := .ok [repoC3], fetchTeamsForOrg := fun _ => .ok [],
    fetchReposForTeam := fun _ _ => .ok [], fetchMembersForTeam := fun _ _ => .ok [],
    fetchAccounts := .ok [acctC3] }

/-- A private repository owned by the organization `acme`. -/
def repoC5 : Repo :=
  { ID := "5", Name := "acme/infra", Visibility := VisibilityPrivate,
    Level := Access.Read, AccountName := "acme", AccountType := AccountTypeOrg }

/-- The account-listing entry for the organization `acme`. -/
def acctC5org : Account := { ID := "a9", Name := "acme", IsOrg := true, IsAdmin := false }

/-- The account-listing entry for `bob`, flagged as an administrator. -/
def acctC5bob : Account := { ID := "b7", Name := "bob", IsOrg := false, IsAdmin := true }

/-- Input where an organization owns a repository and an account is flagged as
an administrator; no teams exist. -/
def dsC5 : DataSource :=
  { fetchAllRepos := .ok [repoC5], fetchTeamsForOrg := fun _ => .ok [],
    fetchReposForTeam := fun _ _ => .ok [], fetchMembersForTeam := fun _ _ => .ok [],
    fetchAccounts := .ok [acctC5org, acctC5bob] }

/-- A private repository owned by the organization `acme` (C6 inputs). -/
def repoC6 : Repo :=
  { ID := "6", Name := "acme/infra", Visibility := VisibilityPrivate,
    Level := Access.Read, AccountName := "acme", AccountType := AccountTypeOrg }

/-- A team that grants access to zero repositories. -/
def teamC6 : Team := { ID := "t1", Name := "ghost", Users := [], Repos := [] }

/-- The member `mallory` of the repository-less team. -/
def memberC6 : TeamMember :=
  { User := { ID := "m1", Name := "mallory", IsAdmin := false, Repos := [] } }

/-- Input where `mallory` appears only as a member of a team whose
repository-access list is empty. -/
def dsC6 : DataSource :=
  { fetchAllRepos := .ok [repoC6],
    fetchTeamsForOrg := fun _ => .ok [teamC6],
    fetchReposForTeam := fun _ _ => .ok [],
    fetchMembersForTeam := fun _ _ => .ok [memberC6],
    fetchAccounts := .ok [] }

/-- A user-owned repository for the amended-claim witness. -/
def repoC6w1 : Repo :=
  { ID := "61", Name := "alice/proj", Visibility := VisibilityPrivate,
    Level := Access.Read, AccountName := "alice", AccountType := AccountTypeUser }

/-- An organization-owned repository for the amended-claim witness. -/
def repoC6w2 : Repo :=
  { ID := "62", Name := "acme/infra", Visibility := VisibilityPrivate,
    Level := Access.Read, AccountName := "acme", AccountType := AccountTypeOrg }

/-- A team granting one repository. -/
def teamC6w : Team := { ID := "t2", Name := "platform", Users := [], Repos := [] }

/-- The team grant of `acme/infra` at level Write. -/
def trC6w : TeamRepo := { Repo := repoC6w2, Level := Access.Write }

/-- The team member `bob`. -/
def memberC6w : TeamMember :=
  { User := { ID := "m2", Name := "bob", IsAdmin := false, Repos := [] } }

/-- The account-listing entry for `carol`, who owns nothing. -/
def acctC6w : Account := { ID := "c1", Name := "carol", IsOrg := false, IsAdmin := false }

/-- Input containing an account of each of the three kinds: a repository
owner, a team member whose team grants a repository, and a listed account. -/
def dsC6w : DataSource :=
  { fetchAllRepos := .ok [repoC6w1, repoC6w2],
    fetchTeamsForOrg := fun _ => .ok [teamC6w],
    fetchReposForTeam := fun _ _ => .ok [trC6w],
    fetchMembersForTeam := fun _ _ => .ok [memberC6w],
    fetchAccounts := .ok [acctC6w] }


/-! ### Basic lemmas about the embedded Go maps and the access order -/

theorem Map.find_set {α : Type} (m : Map α) (k k2 : String) (v : α) :
    Map.find (Map.set m k v) k2 = if k = k2 then some v else Map.find m k2 := by
  induction m with
  | nil =>
    by_cases h : k = k2 <;> simp [Map.set, Map.find, h]
  | cons hd tl ih =>
    obtain ⟨k1, v1⟩ := hd
    by_cases h1 : k1 = k
    · subst h1
      by_cases h2 : k1 = k2 <;> simp [Map.set, Map.find, h2]
    · by_cases h2 : k1 = k2
      · subst h2
        have hk : ¬ k = k1 := fun h => h1 h.symm
        simp [Map.set, Map.find, h1, hk]
      · simp [Map.set, Map.find, h1, h2, ih]

theorem Map.find_set_self {α : Type} (m : Map α) (k : String) (v : α) :
    Map.find (Map.set m k v) k = some v := by
  simp [Map.find_set]

theorem Map.find_set_ne {α : Type} (m : Map α) (k k2 : String) (v : α) (h : ¬ k = k2) :
    Map.find (Map.set m k v) k2 = Map.find m k2 := by
  simp [Map.find_set, h]

theorem Map.mem_keys_set {α : Type} (m : Map α) (k x : String) (v : α) :
    x ∈ Map.keys (Map.set m k v) ↔ x = k ∨ x ∈ Map.keys m := by
  induction m with
  | nil => simp [Map.set, Map.keys]
  | cons hd tl ih =>
    obtain ⟨k1, v1⟩ := hd
    by_cases h1 : k1 = k
    · subst h1
      simp [Map.set, Map.keys]
    · simp [Map.set, Map.keys, h1] at ih ⊢
      tauto

theorem Map.nodup_set {α : Type} (m : Map α) (k : String) (v : α)
    (h : (Map.keys m).Nodup) : (Map.keys (Map.set m k v)).Nodup := by
  induction m with
  | nil => simp [Map.set, Map.keys]
  | cons hd tl ih =>
    obtain ⟨k1, v1⟩ := hd
    have hkeys : Map.keys ((k1, v1) :: tl) = k1 :: Map.keys tl := rfl
    rw [hkeys, List.nodup_cons] at h
    by_cases h1 : k1 = k
    · subst h1
      have hset : Map.set ((k1, v1) :: tl) k1 v = (k1, v) :: tl := by simp [Map.set]
      rw [hset]
      show (k1 :: Map.keys tl).Nodup
      exact List.nodup_cons.mpr h
    · have hset : Map.set ((k1, v1) :: tl) k v = (k1, v1) :: Map.set tl k v := by
        simp [Map.set, h1]
      rw [hset]
      show (k1 :: Map.keys (Map.set tl k v)).Nodup
      rw [List.nodup_cons]
      refine ⟨?_, ih h.2⟩
      rw [Map.mem_keys_set]
      push_neg
      exact ⟨h1, h.1⟩

theorem Access.toNat_le_two (a : Access) : Access.toNat a ≤ 2 := by
  cases a <;> simp [Access.toNat]

theorem Access.eq_admin_of_two_le (a : Access) (h : 2 ≤ Access.toNat a) :
    a = Access.Admin := by
  cases a <;> simp [Access.toNat] at h ⊢

theorem preserved_refl (s : Auditor) : Preserved s s := by
  refine ⟨fun n u h => ⟨u, h, rfl, fun rn r hr => ⟨r, hr, le_refl _⟩⟩, fun n o h => h, id⟩

theorem preserved_trans {s t w : Auditor} (h1 : Preserved s t) (h2 : Preserved t w) :
    Preserved s w := by
  obtain ⟨hu1, ho1, hn1⟩ := h1
  obtain ⟨hu2, ho2, hn2⟩ := h2
  refine ⟨?_, fun n o h => ho2 n o (ho1 n o h), fun h => hn2 (hn1 h)⟩
  intro n u h
  obtain ⟨v, hv, hvn, hvr⟩ := hu1 n u h
  obtain ⟨w2, hw, hwn, hwr⟩ := hu2 n v hv
  refine ⟨w2, hw, hwn.trans hvn, ?_⟩
  intro rn r hr
  obtain ⟨q, hq, hle⟩ := hvr rn r hr
  obtain ⟨q2, hq2, hle2⟩ := hwr rn q hq
  exact ⟨q2, hq2, le_trans hle hle2⟩

/-- Updating the user registry at one key with a value that is a monotone
update of whatever was stored there preserves the invariant. -/
theorem preserved_users_update (a : Auditor) (n : String) (newU : User)
    (hmono : ∀ u, Map.find a.Users n = some u → newU.Name = u.Name ∧
      ∀ rn r, Map.find u.Repos rn = some r → ∃ q, Map.find newU.Repos rn = some q ∧
        Access.toNat r.Level ≤ Access.toNat q.Level) :
    Preserved a { a with Users := Map.set a.Users n newU } := by
  refine ⟨?_, fun n2 o h => h, fun h => Map.nodup_set _ _ _ h⟩
  intro n2 u h
  by_cases hn : n = n2
  · subst hn
    obtain ⟨hname, hrep⟩ := hmono u h
    exact ⟨newU, by simp [Map.find_set_self], hname, hrep⟩
  · exact ⟨u, by simp [Map.find_set_ne _ _ _ _ hn, h], rfl,
      fun rn r hr => ⟨r, hr, le_refl _⟩⟩

/-- Creating an organization record at an absent key preserves the invariant. -/
theorem preserved_orgs_create (a : Auditor) (n : String) (o : Org)
    (habsent : Map.find a.Orgs n = none) :
    Preserved a { a with Orgs := Map.set a.Orgs n o } := by
  refine ⟨fun n2 u h => ⟨u, h, rfl, fun rn r hr => ⟨r, hr, le_refl _⟩⟩, ?_, id⟩
  intro n2 o2 h
  by_cases hn : n = n2
  · subst hn
    rw [habsent] at h
    exact absurd h (by simp)
  · simpa [Map.find_set_ne _ _ _ _ hn] using h

theorem preserved_addPublic (a : Auditor) (r : Repo) : Preserved a (addPublic a r) := by
  unfold addPublic
  by_cases h : r.Visibility = VisibilityPublic <;> simp [h]
  · exact ⟨fun n u h => ⟨u, h, rfl, fun rn r2 hr => ⟨r2, hr, le_refl _⟩⟩, fun n o h => h, id⟩
  · exact preserved_refl a

theorem preserved_ensureOrg (a : Auditor) (n : String) : Preserved a (ensureOrg a n) := by
  unfold ensureOrg
  cases hfind : Map.find a.Orgs n with
  | some o => exact preserved_refl a
  | none => exact preserved_orgs_create a n _ hfind

/-- `AddRepo` keeps the user's name and is monotone on every stored entry. -/
theorem addRepo_mono (u : User) (r : Repo) :
    (User.AddRepo u r).Name = u.Name ∧
    ∀ rn q0, Map.find u.Repos rn = some q0 →
      ∃ q, Map.find (User.AddRepo u r).Repos rn = some q ∧
        Access.toNat q0.Level ≤ Access.toNat q.Level := by
  unfold User.AddRepo
  cases hfind : Map.find u.Repos r.Name with
  | some existing =>
    simp only [hfind]
    by_cases hlt : Access.toNat r.Level < Access.toNat existing.Level
    · rw [if_pos hlt]
      exact ⟨rfl, fun rn q0 h => ⟨q0, h, le_refl _⟩⟩
    · rw [if_neg hlt]
      refine ⟨rfl, ?_⟩
      intro rn q0 h
      by_cases hrn : r.Name = rn
      · subst hrn
        rw [hfind] at h
        injection h with h
        subst h
        exact ⟨r, by simp [Map.find_set_self], by omega⟩
      · exact ⟨q0, by simp [Map.find_set_ne _ _ _ _ hrn, h], le_refl _⟩
  | none =>
    simp only [hfind]
    refine ⟨by trivial, ?_⟩
    intro rn q0 h
    by_cases hrn : r.Name = rn
    · subst hrn
      rw [hfind] at h
      exact absurd h (by simp)
    · exact ⟨q0, by simp [Map.find_set_ne _ _ _ _ hrn, h], le_refl _⟩

theorem preserved_assignOwnedRepo (a : Auditor) (name : String) (r : Repo)
    (hadm : r.Level = Access.Admin) :
    Preserved a (assignOwnedRepo a name r) := by
  unfold assignOwnedRepo
  cases hfind : Map.find a.Users name with
  | some u0 =>
    simp only [hfind]
    apply preserved_users_update
    intro u hu
    rw [hfind] at hu
    injection hu with hu
    subst hu
    refine ⟨rfl, ?_⟩
    intro rn q0 h
    by_cases hrn : r.Name = rn
    · subst hrn
      refine ⟨r, by simp [Map.find_set_self], ?_⟩
      rw [hadm]
      exact Access.toNat_le_two _
    · exact ⟨q0, by simp [Map.find_set_ne _ _ _ _ hrn, h], le_refl _⟩
  | none =>
    simp only [hfind]
    apply preserved_users_update
    intro u hu
    rw [hfind] at hu
    exact absurd hu (by simp)

theorem preserved_processRepo (a : Auditor) (r : Repo) : Preserved a (processRepo a r) := by
  unfold processRepo
  by_cases ht : r.AccountType = AccountTypeOrg
  · rw [if_pos ht]
    exact preserved_trans (preserved_ensureOrg a r.AccountName) (preserved_addPublic _ r)
  · rw [if_neg ht]
    exact preserved_trans (preserved_assignOwnedRepo a r.AccountName _ rfl)
      (preserved_addPublic _ _)

theorem preserved_processTeamMember (r : Repo) (a : Auditor) (m : TeamMember) :
    Preserved a (processTeamMember r a m) := by
  unfold processTeamMember
  cases hfind : Map.find a.Users m.User.Name with
  | some u0 =>
    simp only [hfind]
    apply preserved_users_update
    intro u hu
    rw [hfind] at hu
    injection hu with hu
    subst hu
    exact addRepo_mono _ r
  | none =>
    simp only [hfind]
    apply preserved_users_update
    intro u hu
    rw [hfind] at hu
    exact absurd hu (by simp)

theorem preserved_processAccount (a : Auditor) (acc : Account) :
    Preserved a (processAccount a acc) := by
  unfold processAccount
  by_cases hOrg : acc.IsOrg = true
  · rw [if_pos hOrg]
    cases hfind : Map.find a.Orgs acc.Name with
    | some o =>
      simp only [hfind]
      exact preserved_refl a
    | none =>
      simp only [hfind]
      exact preserved_orgs_create a acc.Name _ hfind
  · rw [if_neg hOrg]
    cases hfind : Map.find a.Users acc.Name with
    | some u0 =>
      simp only [hfind]
      apply preserved_users_update
      intro u hu
      rw [hfind] at hu
      injection hu with hu
      subst hu
      exact ⟨rfl, fun rn q0 h => ⟨q0, h, le_refl _⟩⟩
    | none =>
      simp only [hfind]
      apply preserved_users_update
      intro u hu
      rw [hfind] at hu
      exact absurd hu (by simp)

theorem step_preserved {s t : Auditor} (h : AuditStep s t) : Preserved s t := by
  cases h with
  | repo r => exact preserved_processRepo _ r
  | member r m => exact preserved_processTeamMember r _ m
  | account acc => exact preserved_processAccount _ acc

theorem steps_preserved {s t : Auditor} (h : Steps s t) : Preserved s t := by
  induction h with
  | refl => exact preserved_refl s
  | tail h1 h2 ih => exact preserved_trans ih (step_preserved h2)

theorem steps_refl (s : Auditor) : Steps s s := Relation.ReflTransGen.refl

theorem steps_trans {s t w : Auditor} (h1 : Steps s t) (h2 : Steps t w) : Steps s w :=
  Relation.ReflTransGen.trans h1 h2

theorem steps_single {s t : Auditor} (h : AuditStep s t) : Steps s t :=
  Relation.ReflTransGen.single h

theorem steps_foldl {β : Type} (f : Auditor → β → Auditor)
    (hf : ∀ s b, Steps s (f s b)) :
    ∀ (l : List β) (a : Auditor), Steps a (List.foldl f a l)
  | [], a => steps_refl a
  | b :: l, a => steps_trans (hf a b) (steps_foldl f hf l (f a b))

theorem steps_processTeamRepo (members : List TeamMember) (a : Auditor) (tr : TeamRepo) :
    Steps a (processTeamRepo members a tr) :=
  steps_foldl _ (fun s m => steps_single (AuditStep.member s _ m)) members a

theorem steps_auditAllRepos {ds : DataSource} {a b : Auditor}
    (h : auditAllRepos ds a = .ok b) : Steps a b := by
  unfold auditAllRepos at h
  cases hf : ds.fetchAllRepos with
  | error e => rw [hf] at h; cases h
  | ok repos =>
    rw [hf] at h
    injection h with h
    subst h
    exact steps_foldl _ (fun s r => steps_single (AuditStep.repo s r)) repos a

theorem steps_auditTeam {ds : DataSource} {orgName : String} {team : Team} {a b : Auditor}
    (h : auditTeam ds orgName team a = .ok b) : Steps a b := by
  unfold auditTeam at h
  cases h1 : ds.fetchReposForTeam orgName team.Name with
  | error e => rw [h1] at h; cases h
  | ok repos =>
    rw [h1] at h
    cases h2 : ds.fetchMembersForTeam orgName team.Name with
    | error e => rw [h2] at h; cases h
    | ok users =>
      rw [h2] at h
      injection h with h
      subst h
      exact steps_foldl _ (steps_processTeamRepo users) repos a

theorem steps_auditTeams {ds : DataSource} {orgName : String} :
    ∀ {l : List Team} {a b : Auditor}, auditTeams ds orgName l a = .ok b → Steps a b := by
  intro l
  induction l with
  | nil =>
    intro a b h
    unfold auditTeams at h
    injection h with h
    subst h
    exact steps_refl _
  | cons team rest ih =>
    intro a b h
    unfold auditTeams at h
    cases h1 : auditTeam ds orgName team a with
    | error e => rw [h1] at h; cases h
    | ok a2 =>
      rw [h1] at h
      exact steps_trans (steps_auditTeam h1) (ih h)

theorem steps_auditOrgsList {ds : DataSource} :
    ∀ {l : List (String × Org)} {a b : Auditor}, auditOrgsList ds l a = .ok b → Steps a b := by
  intro l
  induction l with
  | nil =>
    intro a b h
    unfold auditOrgsList at h
    injection h with h
    subst h
    exact steps_refl _
  | cons hd rest ih =>
    intro a b h
    obtain ⟨orgName, o⟩ := hd
    cases h1 : ds.fetchTeamsForOrg orgName with
    | error e =>
      simp only [auditOrgsList, h1] at h
      exact absurd h (by simp)
    | ok teams =>
      simp only [auditOrgsList, h1] at h
      cases h2 : auditTeams ds orgName teams a with
      | error e =>
        simp only [h2] at h
        exact absurd h (by simp)
      | ok a2 =>
        simp only [h2] at h
        exact steps_trans (steps_auditTeams h2) (ih h)

theorem steps_auditOrgs {ds : DataSource} {a b : Auditor}
    (h : auditOrgs ds a = .ok b) : Steps a b :=
  steps_auditOrgsList h

theorem steps_auditRemainingAccounts {ds : DataSource} {a b : Auditor}
    (h : auditRemainingAccounts ds a = .ok b) : Steps a b := by
  unfold auditRemainingAccounts at h
  cases hf : ds.fetchAccounts with
  | error e => rw [hf] at h; cases h
  | ok accts =>
    rw [hf] at h
    injection h with h
    subst h
    exact steps_foldl _ (fun s acc => steps_single (AuditStep.account s acc)) accts a

theorem steps_Run {ds : DataSource} {a b : Auditor} (h : Run ds a = .ok b) : Steps a b := by
  cases h1 : auditAllRepos ds a with
  | error e =>
    simp only [Run, h1] at h
    exact absurd h (by simp)
  | ok a1 =>
    simp only [Run, h1] at h
    cases h2 : auditOrgs ds a1 with
    | error e =>
      simp only [h2] at h
      exact absurd h (by simp)
    | ok a2 =>
      simp only [h2] at h
      exact steps_trans (steps_auditAllRepos h1)
        (steps_trans (steps_auditOrgs h2) (steps_auditRemainingAccounts h))

/-! ### Decomposition of successful runs and stage-1 creation lemmas -/

theorem run_decomp {ds : DataSource} {a b : Auditor} (h : Run ds a = .ok b) :
    ∃ a1 a2, auditAllRepos ds a = .ok a1 ∧ auditOrgs ds a1 = .ok a2 ∧
      auditRemainingAccounts ds a2 = .ok b := by
  cases h1 : auditAllRepos ds a with
  | error e =>
    simp only [Run, h1] at h
    exact absurd h (by simp)
  | ok a1 =>
    simp only [Run, h1] at h
    cases h2 : auditOrgs ds a1 with
    | error e =>
      simp only [h2] at h
      exact absurd h (by simp)
    | ok a2 =>
      simp only [h2] at h
      exact ⟨a1, a2, rfl, h2, h⟩

theorem auditAllRepos_ok {ds : DataSource} {a b : Auditor}
    (h : auditAllRepos ds a = .ok b) :
    ∃ repos, ds.fetchAllRepos = .ok repos ∧ b = List.foldl processRepo a repos := by
  cases hf : ds.fetchAllRepos with
  | error e =>
    simp only [auditAllRepos, hf] at h
    exact absurd h (by simp)
  | ok repos =>
    simp only [auditAllRepos, hf] at h
    injection h with h
    exact ⟨repos, rfl, h.symm⟩

theorem auditRemainingAccounts_ok {ds : DataSource} {a b : Auditor}
    (h : auditRemainingAccounts ds a = .ok b) :
    ∃ accts, ds.fetchAccounts = .ok accts ∧ b = List.foldl processAccount a accts := by
  cases hf : ds.fetchAccounts with
  | error e =>
    simp only [auditRemainingAccounts, hf] at h
    exact absurd h (by simp)
  | ok accts =>
    simp only [auditRemainingAccounts, hf] at h
    injection h with h
    exact ⟨accts, rfl, h.symm⟩

theorem addPublic_users (a : Auditor) (r : Repo) : (addPublic a r).Users = a.Users := by
  unfold addPublic
  by_cases h : r.Visibility = VisibilityPublic
  · rw [if_pos h]
  · rw [if_neg h]

theorem addPublic_orgs (a : Auditor) (r : Repo) : (addPublic a r).Orgs = a.Orgs := by
  unfold addPublic
  by_cases h : r.Visibility = VisibilityPublic
  · rw [if_pos h]
  · rw [if_neg h]

theorem assignOwnedRepo_orgs (a : Auditor) (name : String) (r : Repo) :
    (assignOwnedRepo a name r).Orgs = a.Orgs := by
  unfold assignOwnedRepo
  cases hfind : Map.find a.Users name with
  | some u0 => simp only [hfind]
  | none => simp only [hfind]

theorem hasAdminEntry_steps {s t : Auditor} (hst : Steps s t) {name rn : String}
    (h : HasAdminEntry s name rn) : HasAdminEntry t name rn := by
  obtain ⟨u, r, hu, hr, hlev⟩ := h
  obtain ⟨hu', _, _⟩ := steps_preserved hst
  obtain ⟨v, hv, _, hvr⟩ := hu' _ u hu
  obtain ⟨q, hq, hle⟩ := hvr _ r hr
  refine ⟨v, q, hv, hq, ?_⟩
  apply Access.eq_admin_of_two_le
  rw [hlev] at hle
  simpa [Access.toNat] using hle

theorem assignOwnedRepo_creates (a : Auditor) (name : String) (r : Repo) :
    ∃ u, Map.find (assignOwnedRepo a name r).Users name = some u ∧
      Map.find u.Repos r.Name = some r := by
  unfold assignOwnedRepo
  cases hfind : Map.find a.Users name with
  | some u0 =>
    simp only [hfind]
    exact ⟨_, Map.find_set_self _ _ _, Map.find_set_self _ _ _⟩
  | none =>
    simp only [hfind]
    exact ⟨_, Map.find_set_self _ _ _, Map.find_set_self _ _ _⟩

theorem processRepo_user_admin (a : Auditor) (repo : Repo)
    (ht : ¬ repo.AccountType = AccountTypeOrg) :
    HasAdminEntry (processRepo a repo) repo.AccountName repo.Name := by
  unfold processRepo
  rw [if_neg ht]
  obtain ⟨u, hu, hr⟩ :=
    assignOwnedRepo_creates a repo.AccountName { repo with Level := Access.Admin }
  refine ⟨u, { repo with Level := Access.Admin }, ?_, hr, rfl⟩
  rw [addPublic_users]
  exact hu

theorem stage1_user_admin (repos : List Repo) :
    ∀ (a : Auditor) (repo : Repo), repo ∈ repos → ¬ repo.AccountType = AccountTypeOrg →
      HasAdminEntry (List.foldl processRepo a repos) repo.AccountName repo.Name := by
  induction repos with
  | nil =>
    intro a repo h
    exact absurd h (by simp)
  | cons hd tl ih =>
    intro a repo hmem ht
    rcases List.mem_cons.mp hmem with heq | hmem2
    · subst heq
      have h1 := processRepo_user_admin a repo ht
      have h2 : Steps (processRepo a repo) (List.foldl processRepo (processRepo a repo) tl) :=
        steps_foldl _ (fun s r => steps_single (AuditStep.repo s r)) tl _
      exact hasAdminEntry_steps h2 h1
    · exact ih (processRepo a hd) repo hmem2 ht

theorem ensureOrg_orgsIdEmpty (a : Auditor) (name : String) (h : OrgsIdEmpty a) :
    OrgsIdEmpty (ensureOrg a name) := by
  unfold ensureOrg
  cases hfind : Map.find a.Orgs name with
  | some o => simpa only [hfind] using h
  | none =>
    simp only [hfind]
    intro n o hno
    by_cases hn : name = n
    · subst hn
      rw [Map.find_set_self] at hno
      injection hno with hno
      subst hno
      rfl
    · rw [Map.find_set_ne _ _ _ _ hn] at hno
      exact h n o hno

theorem processRepo_orgsIdEmpty (a : Auditor) (repo : Repo) (h : OrgsIdEmpty a) :
    OrgsIdEmpty (processRepo a repo) := by
  unfold processRepo
  by_cases ht : repo.AccountType = AccountTypeOrg
  · rw [if_pos ht]
    intro n o hno
    rw [addPublic_orgs] at hno
    exact ensureOrg_orgsIdEmpty a repo.AccountName h n o hno
  · rw [if_neg ht]
    intro n o hno
    rw [addPublic_orgs, assignOwnedRepo_orgs] at hno
    exact h n o hno

theorem stage1_orgsIdEmpty (repos : List Repo) :
    ∀ a : Auditor, OrgsIdEmpty a → OrgsIdEmpty (List.foldl processRepo a repos) := by
  induction repos with
  | nil => exact fun a h => h
  | cons hd tl ih => exact fun a h => ih (processRepo a hd) (processRepo_orgsIdEmpty a hd h)

theorem processRepo_org_present (a : Auditor) (repo : Repo)
    (ht : repo.AccountType = AccountTypeOrg) :
    ∃ o, Map.find (processRepo a repo).Orgs repo.AccountName = some o := by
  unfold processRepo
  rw [if_pos ht, addPublic_orgs]
  unfold ensureOrg
  cases hfind : Map.find a.Orgs repo.AccountName with
  | some o =>
    simp only [hfind]
    exact ⟨o, rfl⟩
  | none =>
    simp only [hfind]
    exact ⟨_, Map.find_set_self _ _ _⟩

theorem stage1_org_present (repos : List Repo) :
    ∀ (a : Auditor) (repo : Repo), repo ∈ repos → repo.AccountType = AccountTypeOrg →
      ∃ o, Map.find (List.foldl processRepo a repos).Orgs repo.AccountName = some o := by
  induction repos with
  | nil =>
    intro a repo h
    exact absurd h (by simp)
  | cons hd tl ih =>
    intro a repo hmem ht
    rcases List.mem_cons.mp hmem with heq | hmem2
    · subst heq
      obtain ⟨o, ho⟩ := processRepo_org_present a repo ht
      have h2 : Steps (processRepo a repo) (List.foldl processRepo (processRepo a repo) tl) :=
        steps_foldl _ (fun s r => steps_single (AuditStep.repo s r)) tl _
      exact ⟨o, (steps_preserved h2).2.1 _ o ho⟩
    · exact ih (processRepo a hd) repo hmem2 ht

/-! ### Merge-rule lemmas (for C2), stage-3 frame lemmas (for C7),
stage-congruence lemmas (for C8) and retry-loop bounds (for C9) -/

theorem Access.toNat_inj (a b : Access) (h : Access.toNat a = Access.toNat b) :
    a = b := by
  cases a <;> cases b <;> first | rfl | simp [Access.toNat] at h

theorem addRepo_none (u : User) (r : Repo) (h : Map.find u.Repos r.Name = none) :
    Map.find (User.AddRepo u r).Repos r.Name = some r := by
  unfold User.AddRepo
  simp only [h]
  exact Map.find_set_self _ _ _

theorem addRepo_some (u : User) (r : Repo) (ex : Repo)
    (h : Map.find u.Repos r.Name = some ex) :
    Map.find (User.AddRepo u r).Repos r.Name =
      some (if Access.toNat r.Level < Access.toNat ex.Level then ex else r) := by
  unfold User.AddRepo
  simp only [h]
  by_cases hlt : Access.toNat r.Level < Access.toNat ex.Level
  · rw [if_pos hlt, if_pos hlt]
    exact h
  · rw [if_neg hlt, if_neg hlt]
    exact Map.find_set_self _ _ _

theorem addRepo_fold_max (rn : String) :
    ∀ (rs : List Repo) (u : User) (cur : Repo),
      (∀ r ∈ rs, r.Name = rn) → Map.find u.Repos rn = some cur →
      ∃ res, Map.find (List.foldl User.AddRepo u rs).Repos rn = some res ∧
        (res = cur ∨ res ∈ rs) ∧
        Access.toNat cur.Level ≤ Access.toNat res.Level ∧
        ∀ r ∈ rs, Access.toNat r.Level ≤ Access.toNat res.Level := by
  intro rs
  induction rs with
  | nil =>
    intro u cur hall hcur
    exact ⟨cur, hcur, Or.inl rfl, le_refl _, by simp⟩
  | cons r rest ih =>
    intro u cur hall hcur
    have hname : r.Name = rn := hall r (List.mem_cons_self r rest)
    have hcur2 : Map.find u.Repos r.Name = some cur := by
      rw [hname]
      exact hcur
    by_cases hlt : Access.toNat r.Level < Access.toNat cur.Level
    · have hfind2 : Map.find (User.AddRepo u r).Repos rn = some cur := by
        rw [← hname, addRepo_some u r cur hcur2, if_pos hlt]
      obtain ⟨res, hres, hmem, hle1, hle2⟩ := ih (User.AddRepo u r) cur
        (fun r2 h2 => hall r2 (List.mem_cons_of_mem r h2)) hfind2
      refine ⟨res, hres, ?_, hle1, ?_⟩
      · rcases hmem with h | h
        · exact Or.inl h
        · exact Or.inr (List.mem_cons_of_mem r h)
      · intro r2 h2
        rcases List.mem_cons.mp h2 with h3 | h3
        · subst h3
          omega
        · exact hle2 r2 h3
    · have hfind2 : Map.find (User.AddRepo u r).Repos rn = some r := by
        rw [← hname, addRepo_some u r cur hcur2, if_neg hlt]
      obtain ⟨res, hres, hmem, hle1, hle2⟩ := ih (User.AddRepo u r) r
        (fun r2 h2 => hall r2 (List.mem_cons_of_mem r h2)) hfind2
      refine ⟨res, hres, ?_, ?_, ?_⟩
      · rcases hmem with h | h
        · refine Or.inr ?_
          rw [h]
          exact List.mem_cons_self r rest
        · exact Or.inr (List.mem_cons_of_mem r h)
      · have hge : Access.toNat cur.Level ≤ Access.toNat r.Level := Nat.le_of_not_lt hlt
        exact le_trans hge hle1
      · intro r2 h2
        rcases List.mem_cons.mp h2 with h3 | h3
        · subst h3
          exact hle1
        · exact hle2 r2 h3

theorem processAccount_existing_frame (a : Auditor) (acc : Account) (u : User)
    (hOrg : acc.IsOrg = false) (hfind : Map.find a.Users acc.Name = some u) :
    Map.find (processAccount a acc).Users acc.Name =
      some { u with IsAdmin := acc.IsAdmin, ID := acc.ID } ∧
    ∀ n, ¬ n = acc.Name →
      Map.find (processAccount a acc).Users n = Map.find a.Users n := by
  unfold processAccount
  rw [hOrg, if_neg (by simp)]
  simp only [hfind]
  constructor
  · exact Map.find_set_self _ _ _
  · intro n hn
    exact Map.find_set_ne _ _ _ _ (fun h => hn h.symm)

theorem processAccount_repos_name (a : Auditor) (acc : Account) (n : String) (u : User)
    (h : Map.find a.Users n = some u) :
    ∃ v, Map.find (processAccount a acc).Users n = some v ∧
      v.Repos = u.Repos ∧ v.Name = u.Name := by
  unfold processAccount
  by_cases hOrg : acc.IsOrg = true
  · rw [if_pos hOrg]
    cases hfind : Map.find a.Orgs acc.Name with
    | some o =>
      simp only [hfind]
      exact ⟨u, h, rfl, rfl⟩
    | none =>
      simp only [hfind]
      exact ⟨u, h, rfl, rfl⟩
  · rw [if_neg hOrg]
    cases hfind : Map.find a.Users acc.Name with
    | some u0 =>
      simp only [hfind]
      by_cases hn : acc.Name = n
      · subst hn
        rw [hfind] at h
        injection h with h
        subst h
        exact ⟨_, Map.find_set_self _ _ _, rfl, rfl⟩
      · refine ⟨u, ?_, rfl, rfl⟩
        rw [Map.find_set_ne _ _ _ _ hn]
        exact h
    | none =>
      simp only [hfind]
      by_cases hn : acc.Name = n
      · subst hn
        rw [hfind] at h
        exact absurd h (by simp)
      · refine ⟨u, ?_, rfl, rfl⟩
        rw [Map.find_set_ne _ _ _ _ hn]
        exact h

theorem stage3_repos_name (accts : List Account) :
    ∀ (a : Auditor) (n : String) (u : User), Map.find a.Users n = some u →
      ∃ v, Map.find (List.foldl processAccount a accts).Users n = some v ∧
        v.Repos = u.Repos ∧ v.Name = u.Name := by
  induction accts with
  | nil =>
    intro a n u h
    exact ⟨u, h, rfl, rfl⟩
  | cons acc rest ih =>
    intro a n u h
    obtain ⟨v, hv, hr, hn⟩ := processAccount_repos_name a acc n u h
    obtain ⟨w, hw, hr2, hn2⟩ := ih (processAccount a acc) n v hv
    exact ⟨w, hw, hr2.trans hr, hn2.trans hn⟩

theorem auditAllRepos_congr (ds ds2 : DataSource) (a : Auditor)
    (h : ds2.fetchAllRepos = ds.fetchAllRepos) :
    auditAllRepos ds2 a = auditAllRepos ds a := by
  unfold auditAllRepos
  rw [h]

theorem auditTeam_congr (ds ds2 : DataSource) (orgName : String) (team : Team)
    (a : Auditor) (h2 : ds2.fetchReposForTeam = ds.fetchReposForTeam)
    (h3 : ds2.fetchMembersForTeam = ds.fetchMembersForTeam) :
    auditTeam ds2 orgName team a = auditTeam ds orgName team a := by
  unfold auditTeam
  rw [h2, h3]

theorem auditTeams_congr (ds ds2 : DataSource) (orgName : String)
    (h2 : ds2.fetchReposForTeam = ds.fetchReposForTeam)
    (h3 : ds2.fetchMembersForTeam = ds.fetchMembersForTeam) :
    ∀ (l : List Team) (a : Auditor),
      auditTeams ds2 orgName l a = auditTeams ds orgName l a := by
  intro l
  induction l with
  | nil => intro a; rfl
  | cons t rest ih =>
    intro a
    have hco := auditTeam_congr ds ds2 orgName t a h2 h3
    cases hcase : auditTeam ds orgName t a with
    | error e => simp only [auditTeams, hco, hcase]
    | ok a2 =>
      simp only [auditTeams, hco, hcase]
      exact ih a2

theorem auditOrgsList_congr (ds ds2 : DataSource)
    (h1 : ds2.fetchTeamsForOrg = ds.fetchTeamsForOrg)
    (h2 : ds2.fetchReposForTeam = ds.fetchReposForTeam)
    (h3 : ds2.fetchMembersForTeam = ds.fetchMembersForTeam) :
    ∀ (l : List (String × Org)) (a : Auditor),
      auditOrgsList ds2 l a = auditOrgsList ds l a := by
  intro l
  induction l with
  | nil => intro a; rfl
  | cons hd rest ih =>
    intro a
    obtain ⟨orgName, o⟩ := hd
    cases hcase : ds.fetchTeamsForOrg orgName with
    | error e => simp only [auditOrgsList, h1, hcase]
    | ok teams =>
      have hteams := auditTeams_congr ds ds2 orgName h2 h3 teams a
      cases hcase2 : auditTeams ds orgName teams a with
      | error e => simp only [auditOrgsList, h1, hcase, hteams, hcase2]
      | ok a2 =>
        simp only [auditOrgsList, h1, hcase, hteams, hcase2]
        exact ih a2

theorem auditOrgs_congr (ds ds2 : DataSource) (a : Auditor)
    (h1 : ds2.fetchTeamsForOrg = ds.fetchTeamsForOrg)
    (h2 : ds2.fetchReposForTeam = ds.fetchReposForTeam)
    (h3 : ds2.fetchMembersForTeam = ds.fetchMembersForTeam) :
    auditOrgs ds2 a = auditOrgs ds a :=
  auditOrgsList_congr ds ds2 h1 h2 h3 a.Orgs a

theorem retryLoop_bounds (f : Nat → Option String) :
    ∀ (fuel i calls waits : Nat) (last : Option String),
      (retryLoop f fuel i calls waits last).calls ≤ calls + fuel ∧
      (retryLoop f fuel i calls waits last).waits ≤ waits + fuel := by
  intro fuel
  induction fuel with
  | zero =>
    intro i c w last
    simp [retryLoop]
  | succ m ih =>
    intro i c w last
    cases hf : f i with
    | none =>
      simp only [retryLoop, hf]
      omega
    | some e =>
      have h := ih (i + 1) (c + 1) (w + 1) (some e)
      simp only [retryLoop, hf]
      exact ⟨by have := h.1; omega, by have := h.2; omega⟩


/-! ### Visit and key-creation lemmas (for C6) -/

theorem Map.find_mem {α : Type} : ∀ (m : Map α) (k : String) (v : α),
    Map.find m k = some v → (k, v) ∈ m := by
  intro m
  induction m with
  | nil =>
    intro k v h
    simp [Map.find] at h
  | cons hd tl ih =>
    intro k v h
    obtain ⟨k1, v1⟩ := hd
    by_cases hk : k1 = k
    · subst hk
      simp only [Map.find, if_pos rfl] at h
      injection h with h
      subst h
      exact List.mem_cons_self _ _
    · simp only [Map.find, if_neg hk] at h
      exact List.mem_cons_of_mem _ (ih k v h)

theorem user_key_steps {s t : Auditor} (hst : Steps s t) {n : String} {u : User}
    (h : Map.find s.Users n = some u) : ∃ v, Map.find t.Users n = some v := by
  obtain ⟨hu, _, _⟩ := steps_preserved hst
  obtain ⟨v, hv, _⟩ := hu n u h
  exact ⟨v, hv⟩

theorem auditTeams_visit {ds : DataSource} {orgName : String} :
    ∀ {l : List Team} {a b : Auditor} {team : Team},
      auditTeams ds orgName l a = .ok b → team ∈ l →
      ∃ s t, Steps a s ∧ auditTeam ds orgName team s = .ok t ∧ Steps t b := by
  intro l
  induction l with
  | nil =>
    intro a b team h hmem
    exact absurd hmem (by simp)
  | cons t0 rest ih =>
    intro a b team h hmem
    cases hcase : auditTeam ds orgName t0 a with
    | error e =>
      simp only [auditTeams, hcase] at h
      exact absurd h (by simp)
    | ok a2 =>
      simp only [auditTeams, hcase] at h
      rcases List.mem_cons.mp hmem with heq | hmem2
      · subst heq
        exact ⟨a, a2, steps_refl a, hcase, steps_auditTeams h⟩
      · obtain ⟨s, t, hs, ht, htb⟩ := ih h hmem2
        exact ⟨s, t, steps_trans (steps_auditTeam hcase) hs, ht, htb⟩

theorem auditOrgsList_visit {ds : DataSource} :
    ∀ {l : List (String × Org)} {a b : Auditor} {orgName : String} {o : Org},
      auditOrgsList ds l a = .ok b → (orgName, o) ∈ l →
      ∃ teams s t, ds.fetchTeamsForOrg orgName = .ok teams ∧ Steps a s ∧
        auditTeams ds orgName teams s = .ok t ∧ Steps t b := by
  intro l
  induction l with
  | nil =>
    intro a b orgName o h hmem
    exact absurd hmem (by simp)
  | cons hd rest ih =>
    intro a b orgName o h hmem
    obtain ⟨n0, o0⟩ := hd
    cases hcase : ds.fetchTeamsForOrg n0 with
    | error e =>
      simp only [auditOrgsList, hcase] at h
      exact absurd h (by simp)
    | ok teams0 =>
      simp only [auditOrgsList, hcase] at h
      cases hcase2 : auditTeams ds n0 teams0 a with
      | error e =>
        simp only [hcase2] at h
        exact absurd h (by simp)
      | ok a2 =>
        simp only [hcase2] at h
        rcases List.mem_cons.mp hmem with heq | hmem2
        · injection heq with hn ho
          subst hn
          exact ⟨teams0, a, a2, hcase, steps_refl a, hcase2, steps_auditOrgsList h⟩
        · obtain ⟨teams, s, t, h1, h2, h3, h4⟩ := ih h hmem2
          exact ⟨teams, s, t, h1, steps_trans (steps_auditTeams hcase2) h2, h3, h4⟩

theorem processTeamMember_key (r : Repo) (a : Auditor) (m : TeamMember) :
    ∃ u, Map.find (processTeamMember r a m).Users m.User.Name = some u := by
  unfold processTeamMember
  cases hfind : Map.find a.Users m.User.Name with
  | some u0 =>
    simp only [hfind]
    exact ⟨_, Map.find_set_self _ _ _⟩
  | none =>
    simp only [hfind]
    exact ⟨_, Map.find_set_self _ _ _⟩

theorem members_fold_key (r : Repo) :
    ∀ (ms : List TeamMember) (a : Auditor) (m : TeamMember), m ∈ ms →
      ∃ u, Map.find (List.foldl (processTeamMember r) a ms).Users m.User.Name = some u := by
  intro ms
  induction ms with
  | nil =>
    intro a m h
    exact absurd h (by simp)
  | cons m0 rest ih =>
    intro a m hmem
    rcases List.mem_cons.mp hmem with heq | hmem2
    · subst heq
      obtain ⟨u, hu⟩ := processTeamMember_key r a m
      exact user_key_steps
        (steps_foldl _ (fun s m2 => steps_single (AuditStep.member s r m2)) rest _) hu
    · exact ih (processTeamMember r a m0) m hmem2

theorem auditTeam_member_key {ds : DataSource} {orgName : String} {team : Team}
    {a b : Auditor} {trs : List TeamRepo} {ms : List TeamMember} {m : TeamMember}
    (h : auditTeam ds orgName team a = .ok b)
    (hr : ds.fetchReposForTeam orgName team.Name = .ok trs) (hne : trs ≠ [])
    (hm : ds.fetchMembersForTeam orgName team.Name = .ok ms) (hmem : m ∈ ms) :
    ∃ u, Map.find b.Users m.User.Name = some u := by
  simp only [auditTeam, hr, hm] at h
  injection h with h
  subst h
  cases trs with
  | nil => exact absurd rfl hne
  | cons tr rest =>
    obtain ⟨u, hu⟩ :
        ∃ u, Map.find (processTeamRepo ms a tr).Users m.User.Name = some u :=
      members_fold_key _ ms a m hmem
    exact user_key_steps (steps_foldl _ (steps_processTeamRepo ms) rest _) hu

theorem processAccount_user_key (a : Auditor) (acc : Account)
    (hOrg : acc.IsOrg = false) :
    ∃ u, Map.find (processAccount a acc).Users acc.Name = some u := by
  unfold processAccount
  rw [hOrg, if_neg (by simp)]
  cases hfind : Map.find a.Users acc.Name with
  | some u0 =>
    simp only [hfind]
    exact ⟨_, Map.find_set_self _ _ _⟩
  | none =>
    simp only [hfind]
    exact ⟨_, Map.find_set_self _ _ _⟩

theorem stage3_account_key (accts : List Account) :
    ∀ (a : Auditor) (acc : Account), acc ∈ accts → acc.IsOrg = false →
      ∃ u, Map.find (List.foldl processAccount a accts).Users acc.Name = some u := by
  induction accts with
  | nil =>
    intro a acc h
    exact absurd h (by simp)
  | cons acc0 rest ih =>
    intro a acc hmem hOrg
    rcases List.mem_cons.mp hmem with heq | hmem2
    · subst heq
      obtain ⟨u, hu⟩ := processAccount_user_key a acc hOrg
      exact user_key_steps
        (steps_foldl _ (fun s acc2 => steps_single (AuditStep.account s acc2)) rest _) hu
    · exact ih (processAccount a acc0) acc hmem2 hOrg


/-! ### Claim theorems -/

/-- C1 (ownership supremacy): if the repository listing contains a repository
R whose owning account is the user A, then after a successful full run A's
final stored level on R is Admin — for every data source, hence regardless of
any team grant of a lower (or any) level processed in stage 2 before or after
other facts. -/
theorem ownership_supremacy (ds : DataSource) (b : Auditor) (repos : List Repo)
    (repo : Repo) (hrun : Run ds NewAuditor = .ok b)
    (hfetch : ds.fetchAllRepos = .ok repos) (hmem : repo ∈ repos)
    (htype : repo.AccountType = AccountTypeUser) :
    ∃ u r, Map.find b.Users repo.AccountName = some u ∧
      Map.find u.Repos repo.Name = some r ∧ r.Level = Access.Admin := by
  obtain ⟨a1, a2, h1, h2, h3⟩ := run_decomp hrun
  obtain ⟨repos2, hf2, ha1⟩ := auditAllRepos_ok h1
  rw [hfetch] at hf2
  injection hf2 with hf2
  subst hf2
  have hne : ¬ repo.AccountType = AccountTypeOrg := by
    rw [htype]
    intro hcontra
    exact absurd hcontra (by decide)
  have hstage1 := stage1_user_admin repos NewAuditor repo hmem hne
  rw [← ha1] at hstage1
  have hsteps : Steps a1 b :=
    steps_trans (steps_auditOrgs h2) (steps_auditRemainingAccounts h3)
  exact hasAdminEntry_steps hsteps hstage1

/-- Witness for C1 at a concrete single-repository input. -/
theorem ownership_supremacy_witness :
    ∃ u r, Map.find (runResult dsC1).Users "alice" = some u ∧
      Map.find u.Repos "alice/proj" = some r ∧ r.Level = Access.Admin :=
  ownership_supremacy dsC1 (runResult dsC1) [repoC1] repoC1 (by rfl) rfl
    (by simp) rfl

/-- C4 (accumulated entries persist): any chain of loop-body steps of the
pipeline keeps every accumulated (repository name → level) entry of every
user record present at the same or a higher level (records are mutated, never
replaced or dropped); and every successful run is such a chain of steps, so
an entry present at any point of the run is present at the end with the same
or a higher level. -/
theorem permission_entries_monotone :
    (∀ s t : Auditor, Steps s t → ∀ n u rn r,
      Map.find s.Users n = some u → Map.find u.Repos rn = some r →
      ∃ v q, Map.find t.Users n = some v ∧ Map.find v.Repos rn = some q ∧
        Access.toNat r.Level ≤ Access.toNat q.Level) ∧
    (∀ (ds : DataSource) (a b : Auditor), Run ds a = .ok b → Steps a b) := by
  constructor
  · intro s t hst n u rn r hu hr
    obtain ⟨hu2, _, _⟩ := steps_preserved hst
    obtain ⟨v, hv, _, hvr⟩ := hu2 n u hu
    obtain ⟨q, hq, hle⟩ := hvr rn r hr
    exact ⟨v, q, hv, hq, hle⟩
  · intro ds a b h
    exact steps_Run h

/-- Witness for C4: an entry held at Write before a run is still present
afterwards at Write or higher. -/
theorem permission_entries_monotone_witness :
    ∃ v q, Map.find (runFrom dsC4 a0C4).Users "alice" = some v ∧
      Map.find v.Repos "alice/proj" = some q ∧
      Access.toNat repoC4.Level ≤ Access.toNat q.Level := by
  have hrun : Run dsC4 a0C4 = .ok (runFrom dsC4 a0C4) := by rfl
  have hsteps := permission_entries_monotone.2 dsC4 a0C4 (runFrom dsC4 a0C4) hrun
  exact permission_entries_monotone.1 a0C4 (runFrom dsC4 a0C4) hsteps
    "alice" userC4 "alice/proj" repoC4 rfl rfl

/-- C10 (organizations discovered through ownership keep an empty ID): an
organization first seen in stage 1 is created with only its name (ID empty),
stage 3 never updates an existing organization record, and consequently every
organization owning at least one listed repository ends a successful run with
an empty identifier, even when the account listing carries its identifier. -/
theorem stage1_orgs_keep_empty_id :
    (∀ (a : Auditor) (n : String), Map.find a.Orgs n = none →
      Map.find (ensureOrg a n).Orgs n = some { ID := "", Name := n, Teams := [] }) ∧
    (∀ (a : Auditor) (acc : Account) (n : String) (o : Org),
      Map.find a.Orgs n = some o → Map.find (processAccount a acc).Orgs n = some o) ∧
    (∀ (ds : DataSource) (b : Auditor) (repos : List Repo) (repo : Repo),
      Run ds NewAuditor = .ok b → ds.fetchAllRepos = .ok repos → repo ∈ repos →
      repo.AccountType = AccountTypeOrg →
      ∃ o, Map.find b.Orgs repo.AccountName = some o ∧ o.ID = "") := by
  refine ⟨?_, ?_, ?_⟩
  · intro a n habsent
    unfold ensureOrg
    simp only [habsent]
    exact Map.find_set_self _ _ _
  · intro a acc n o h
    exact (step_preserved (AuditStep.account a acc)).2.1 n o h
  · intro ds b repos repo hrun hfetch hmem ht
    obtain ⟨a1, a2, h1, h2, h3⟩ := run_decomp hrun
    obtain ⟨repos2, hf2, ha1⟩ := auditAllRepos_ok h1
    rw [hfetch] at hf2
    injection hf2 with hf2
    subst hf2
    obtain ⟨o, ho⟩ := stage1_org_present repos NewAuditor repo hmem ht
    have hid : o.ID = "" := by
      have hempty : OrgsIdEmpty NewAuditor := by
        intro n2 o2 h
        simp [NewAuditor, Map.find] at h
      exact stage1_orgsIdEmpty repos NewAuditor hempty _ o ho
    rw [← ha1] at ho
    have hsteps : Steps a1 b :=
      steps_trans (steps_auditOrgs h2) (steps_auditRemainingAccounts h3)
    exact ⟨o, (steps_preserved hsteps).2.1 _ o ho, hid⟩

/-- Witness for C10 at a concrete input whose account listing carries the
identifier `42` for the organization. -/
theorem stage1_orgs_keep_empty_id_witness :
    Map.find (ensureOrg NewAuditor "acme").Orgs "acme" =
      some { ID := "", Name := "acme", Teams := [] } ∧
    Map.find (processAccount (ensureOrg NewAuditor "acme") acctC10).Orgs "acme" =
      some { ID := "", Name := "acme", Teams := [] } ∧
    (∃ o, Map.find (runResult dsC10).Orgs "acme" = some o ∧ o.ID = "") := by
  refine ⟨?_, ?_, ?_⟩
  · exact stage1_orgs_keep_empty_id.1 NewAuditor "acme" rfl
  · exact stage1_orgs_keep_empty_id.2.1 _ acctC10 "acme" _
      (stage1_orgs_keep_empty_id.1 NewAuditor "acme" rfl)
  · exact stage1_orgs_keep_empty_id.2.2 dsC10 (runResult dsC10) [repoC10] repoC10
      (by rfl) rfl (by simp) rfl

/-- C2 (merge monotonicity): the merge contract — when a grant arrives for a
repository the account already holds, the stored level stays the existing one
when it is greater than or equal to the incoming one and becomes the incoming
one otherwise — and its consequence that after any nonempty sequence of grant
offers for one (account, repository) pair, starting from no entry, the stored
level is the maximum of the offered levels under Read < Write < Admin. -/
theorem merge_monotonicity :
    (∀ (u : User) (r ex : Repo), Map.find u.Repos r.Name = some ex →
      ∃ res, Map.find (User.AddRepo u r).Repos r.Name = some res ∧
        res.Level = (if Access.toNat r.Level ≤ Access.toNat ex.Level
          then ex.Level else r.Level)) ∧
    (∀ (u : User) (rn : String) (rs : List Repo), (∀ r ∈ rs, r.Name = rn) →
      rs ≠ [] → Map.find u.Repos rn = none →
      ∃ res, Map.find (List.foldl User.AddRepo u rs).Repos rn = some res ∧
        res ∈ rs ∧ ∀ r ∈ rs, Access.toNat r.Level ≤ Access.toNat res.Level) := by
  constructor
  · intro u r ex h
    refine ⟨_, addRepo_some u r ex h, ?_⟩
    by_cases hlt : Access.toNat r.Level < Access.toNat ex.Level
    · rw [if_pos hlt, if_pos (Nat.le_of_lt hlt)]
    · rw [if_neg hlt]
      by_cases hle : Access.toNat r.Level ≤ Access.toNat ex.Level
      · rw [if_pos hle]
        exact Access.toNat_inj _ _ (Nat.le_antisymm hle (Nat.le_of_not_lt hlt))
      · rw [if_neg hle]
  · intro u rn rs hall hne hnone
    cases rs with
    | nil => exact absurd rfl hne
    | cons r1 rest =>
      have hname : r1.Name = rn := hall r1 (List.mem_cons_self r1 rest)
      have h1 : Map.find (User.AddRepo u r1).Repos rn = some r1 := by
        rw [← hname]
        exact addRepo_none u r1 (by rw [hname]; exact hnone)
      obtain ⟨res, hres, hmem, hle1, hle2⟩ := addRepo_fold_max rn rest
        (User.AddRepo u r1) r1 (fun r2 h2 => hall r2 (List.mem_cons_of_mem r1 h2)) h1
      refine ⟨res, hres, ?_, ?_⟩
      · rcases hmem with h | h
        · rw [h]
          exact List.mem_cons_self r1 rest
        · exact List.mem_cons_of_mem r1 h
      · intro r2 h2
        rcases List.mem_cons.mp h2 with h3 | h3
        · subst h3
          exact hle1
        · exact hle2 r2 h3

/-- Witness for C2: merging Read over an existing Write keeps Write, and the
fold over the offers Write, Admin, Read stores level Admin (the maximum). -/
theorem merge_monotonicity_witness :
    (∃ res, Map.find (User.AddRepo userC2ex repoC2r).Repos "acme/infra" = some res ∧
      res.Level = (if Access.toNat repoC2r.Level ≤ Access.toNat repoC2w.Level
        then repoC2w.Level else repoC2r.Level)) ∧
    (∃ res, Map.find
        (List.foldl User.AddRepo userC2 [repoC2w, repoC2a, repoC2r]).Repos
        "acme/infra" = some res ∧
      res ∈ [repoC2w, repoC2a, repoC2r] ∧
      ∀ r ∈ [repoC2w, repoC2a, repoC2r],
        Access.toNat r.Level ≤ Access.toNat res.Level) := by
  constructor
  · exact merge_monotonicity.1 userC2ex repoC2r repoC2w rfl
  · exact merge_monotonicity.2 userC2 "acme/infra" [repoC2w, repoC2a, repoC2r]
      (by decide) (by simp) rfl

/-- C7 (stage-3 frame): processing an account-listing entry for a user already
in the registry stores back exactly the old record with only the admin flag
and identifier replaced, and leaves every other user untouched; consequently a
whole successful stage 3 leaves every previously-known user record with its
permission mapping and name unchanged. -/
theorem stage3_overwrites_only_admin_and_id :
    (∀ (a : Auditor) (acc : Account) (u : User), acc.IsOrg = false →
      Map.find a.Users acc.Name = some u →
      Map.find (processAccount a acc).Users acc.Name =
        some { u with IsAdmin := acc.IsAdmin, ID := acc.ID } ∧
      ∀ n, ¬ n = acc.Name →
        Map.find (processAccount a acc).Users n = Map.find a.Users n) ∧
    (∀ (ds : DataSource) (a b : Auditor) (n : String) (u : User),
      auditRemainingAccounts ds a = .ok b → Map.find a.Users n = some u →
      ∃ v, Map.find b.Users n = some v ∧ v.Repos = u.Repos ∧ v.Name = u.Name) := by
  constructor
  · intro a acc u hOrg hfind
    exact processAccount_existing_frame a acc u hOrg hfind
  · intro ds a b n u h hfind
    obtain ⟨accts, _, hb⟩ := auditRemainingAccounts_ok h
    subst hb
    exact stage3_repos_name accts a n u hfind

/-- Witness for C7: stage 3 updates the known user `bob` to admin with the
listed identifier while the accumulated repository mapping and name survive. -/
theorem stage3_overwrites_only_admin_and_id_witness :
    (Map.find (processAccount a0C7 acctC7).Users "bob" =
        some { userC7 with IsAdmin := acctC7.IsAdmin, ID := acctC7.ID } ∧
      ∀ n, ¬ n = "bob" →
        Map.find (processAccount a0C7 acctC7).Users n = Map.find a0C7.Users n) ∧
    (∃ v, Map.find (runFrom dsC7 a0C7).Users "bob" = some v ∧
      v.Repos = userC7.Repos ∧ v.Name = userC7.Name) := by
  constructor
  · exact stage3_overwrites_only_admin_and_id.1 a0C7 acctC7 userC7 rfl rfl
  · exact stage3_overwrites_only_admin_and_id.2 dsC7 a0C7 (runFrom dsC7 a0C7)
      "bob" userC7 (by rfl) rfl

/-- C8 (fail fast, no partial report): a stage-1 error is returned by `Run`
unchanged for every data source agreeing on the repository fetch (so stages 2
and 3 are never consulted); a stage-2 error likewise for every data source
agreeing on the four fetches stages 1 and 2 use (so stage 3 is never
consulted); a stage-3 error is returned unchanged; and on any failing run the
process outcome is a failure carrying that error with exit status 1 and no
report value. -/
theorem run_fail_fast :
    (∀ (ds ds2 : DataSource) (a : Auditor) (e : String),
      auditAllRepos ds a = .error e → ds2.fetchAllRepos = ds.fetchAllRepos →
      Run ds2 a = .error e) ∧
    (∀ (ds ds2 : DataSource) (a a1 : Auditor) (e : String),
      auditAllRepos ds a = .ok a1 → auditOrgs ds a1 = .error e →
      ds2.fetchAllRepos = ds.fetchAllRepos →
      ds2.fetchTeamsForOrg = ds.fetchTeamsForOrg →
      ds2.fetchReposForTeam = ds.fetchReposForTeam →
      ds2.fetchMembersForTeam = ds.fetchMembersForTeam →
      Run ds2 a = .error e) ∧
    (∀ (ds : DataSource) (a a1 a2 : Auditor) (e : String),
      auditAllRepos ds a = .ok a1 → auditOrgs ds a1 = .ok a2 →
      auditRemainingAccounts ds a2 = .error e → Run ds a = .error e) ∧
    (∀ (ds : DataSource) (e : String), Run ds NewAuditor = .error e →
      mainGo ds = .failure e ∧ (mainGo ds).exitCode = 1) := by
  refine ⟨?_, ?_, ?_, ?_⟩
  · intro ds ds2 a e h hA
    have h2 : auditAllRepos ds2 a = .error e := by
      rw [auditAllRepos_congr ds ds2 a hA]
      exact h
    simp only [Run, h2]
  · intro ds ds2 a a1 e h1 h2 hA hT hR hM
    have e1 : auditAllRepos ds2 a = .ok a1 := by
      rw [auditAllRepos_congr ds ds2 a hA]
      exact h1
    have e2 : auditOrgs ds2 a1 = .error e := by
      rw [auditOrgs_congr ds ds2 a1 hT hR hM]
      exact h2
    simp only [Run, e1, e2]
  · intro ds a a1 a2 e h1 h2 h3
    simp only [Run, h1, h2]
    exact h3
  · intro ds e h
    constructor
    · simp only [mainGo, h]
    · simp only [mainGo, h, MainResult.exitCode]

/-- Witness for C8: a concrete failure at each of the three stages propagates
to `Run`, and the stage-1 failure yields a failing process outcome with exit
status 1. -/
theorem run_fail_fast_witness :
    Run dsErr1 NewAuditor = .error "boom1" ∧
    Run dsErr2 NewAuditor = .error "error fetching teams for org acme: boom2" ∧
    Run dsErr3 NewAuditor = .error "boom3" ∧
    mainGo dsErr1 = .failure "boom1" ∧ (mainGo dsErr1).exitCode = 1 := by
  refine ⟨?_, ?_, ?_, ?_, ?_⟩
  · exact run_fail_fast.1 dsErr1 dsErr1 NewAuditor "boom1" (by rfl) rfl
  · exact run_fail_fast.2.1 dsErr2 dsErr2 NewAuditor
      (List.foldl processRepo NewAuditor [repoC8])
      "error fetching teams for org acme: boom2" (by rfl) (by rfl) rfl rfl rfl rfl
  · exact run_fail_fast.2.2.1 dsErr3 NewAuditor NewAuditor NewAuditor "boom3"
      (by rfl) (by rfl) (by rfl)
  · exact (run_fail_fast.2.2.2 dsErr1 "boom1"
      (run_fail_fast.1 dsErr1 dsErr1 NewAuditor "boom1" (by rfl) rfl)).1
  · exact (run_fail_fast.2.2.2 dsErr1 "boom1"
      (run_fail_fast.1 dsErr1 dsErr1 NewAuditor "boom1" (by rfl) rfl)).2

/-- C9 (bounded retry, uniform non-2xx handling): every `retry` invocation
calls the wrapped function at most 3 times and takes at most 3 pauses of
`retrySleepSeconds` (five) seconds; a first successful attempt returns
immediately with no error and no pause; when all three attempts fail the last
error is surfaced after 3 calls with one five-second pause following each
failed attempt (in particular one between any two consecutive attempts); a
response with a status code outside 200-299 makes the attempt fail with the
status-code error exactly like a transport error; and the request wrapper is
literally `retry` applied to the attempt closure, so such responses are
retried identically. -/
theorem retry_policy :
    (∀ f : Nat → Option String, (retry f).calls ≤ 3 ∧ (retry f).waits ≤ 3) ∧
    (∀ f : Nat → Option String, f 0 = none → retry f = ⟨1, 0, none⟩) ∧
    (∀ (f : Nat → Option String) (e0 e1 e2 : String),
      f 0 = some e0 → f 1 = some e1 → f 2 = some e2 →
      retry f = ⟨3, 3, some e2⟩) ∧
    (∀ (url : String) (transport : Nat → Except String HttpResponse) (i : Nat)
      (resp : HttpResponse), transport i = .ok resp →
      (resp.StatusCode < 200 ∨ 299 < resp.StatusCode) →
      doAttempt url transport i = some (statusCodeError url resp.StatusCode)) ∧
    (∀ (url : String) (transport : Nat → Except String HttpResponse),
      httpDo url transport = retry (doAttempt url transport)) := by
  refine ⟨?_, ?_, ?_, ?_, ?_⟩
  · intro f
    have h := retryLoop_bounds f 3 0 0 0 none
    exact ⟨h.1, h.2⟩
  · intro f h
    simp [retry, retryLoop, h]
  · intro f e0 e1 e2 h0 h1 h2
    simp [retry, retryLoop, h0, h1, h2]
  · intro url transport i resp htrans hcode
    unfold doAttempt
    simp only [htrans]
    rw [if_pos hcode]
  · intro url transport
    rfl

/-- Witness for C9: the always-succeeding closure stops after one call with no
pause; three 500-class failures surface the last error after three calls and
three pauses; a 500 response fails the attempt with the status-code error. -/
theorem retry_policy_witness :
    (retry fC9ok).calls ≤ 3 ∧ (retry fC9ok).waits ≤ 3 ∧
    retry fC9ok = ⟨1, 0, none⟩ ∧
    retry fC9fail = ⟨3, 3, some "2"⟩ ∧
    doAttempt "u" transportC9 0 = some (statusCodeError "u" 500) ∧
    httpDo "u" transportC9 = retry (doAttempt "u" transportC9) := by
  refine ⟨(retry_policy.1 fC9ok).1, (retry_policy.1 fC9ok).2, ?_, ?_, ?_, ?_⟩
  · exact retry_policy.2.1 fC9ok rfl
  · exact retry_policy.2.2.1 fC9fail "0" "1" "2" rfl rfl rfl
  · exact retry_policy.2.2.2.1 "u" transportC9 0 { StatusCode := 500 } rfl
      (Or.inr (by decide))
  · exact retry_policy.2.2.2.2 "u" transportC9

/-- C3 (public broadcast never happens): evaluating the whole program at an
input with the public repository `pub/tool` and the registered account `bob`,
the run succeeds, the report is emitted, `pub/tool` is duly recorded in the
pending public-repository set — and yet `bob` has no entry at all (in
particular none of at least Read) for `pub/tool`: the broadcast that the
source comment defers "to the end when creating the report" is never
performed before emission. -/
theorem public_broadcast_missing :
    mainGo dsC3 = MainResult.report (runResult dsC3) ∧
    (runResult dsC3).publicRepos.map Repo.Name = ["pub/tool"] ∧
    (runResult dsC3).publicRepos.map Repo.Visibility = [VisibilityPublic] ∧
    Map.find (runResult dsC3).Users "bob" =
      some { ID := "b1", Name := "bob", IsAdmin := false, Repos := [] } ∧
    (Map.find (runResult dsC3).Users "bob").map
      (fun u => Map.find u.Repos "pub/tool") = some none := by
  refine ⟨rfl, rfl, rfl, rfl, rfl⟩

/-- C5 (organization administrators are never granted the organization's
repositories): evaluating the whole program at an input where `acme` owns
`acme/infra` and `bob` is flagged as an administrator, the run succeeds but
`bob` ends with an empty permission mapping — no stage merges Admin (or any
level) on organization-owned repositories for flagged administrators. -/
theorem org_admin_grant_missing :
    Run dsC5 NewAuditor = .ok (runResult dsC5) ∧
    Map.find (runResult dsC5).Orgs "acme" =
      some { ID := "", Name := "acme", Teams := [] } ∧
    Map.find (runResult dsC5).Users "bob" =
      some { ID := "b7", Name := "bob", IsAdmin := true, Repos := [] } ∧
    (Map.find (runResult dsC5).Users "bob").map
      (fun u => Map.find u.Repos "acme/infra") = some none := by
  refine ⟨rfl, rfl, rfl, rfl⟩

/-- Counterexample to C6 as stated: `mallory` appears in the team-membership
input stream — the members of team `ghost` of the visited organization `acme`,
fetched during the (successful) run — yet she is absent from the final user
registry, because her team grants access to zero repositories and members are
only registered once per (repository, member) pair. -/
theorem no_account_loss_counterexample :
    Run dsC6 NewAuditor = .ok (runResult dsC6) ∧
    dsC6.fetchAllRepos = .ok [repoC6] ∧
    repoC6.AccountType = AccountTypeOrg ∧ repoC6.AccountName = "acme" ∧
    dsC6.fetchTeamsForOrg "acme" = .ok [teamC6] ∧ teamC6.Name = "ghost" ∧
    dsC6.fetchMembersForTeam "acme" "ghost" = .ok [memberC6] ∧
    memberC6.User.Name = "mallory" ∧
    Map.find (runResult dsC6).Users "mallory" = none := by
  refine ⟨rfl, rfl, rfl, rfl, rfl, rfl, rfl, rfl, rfl⟩

/-- C6 amended (no account loss, with the team-membership source restricted to
teams that grant at least one repository): after a successful run the user
registry's keys are unique, and it contains every account name appearing as
the owning user of a listed repository, as a member of a fetched team whose
repository-access list is nonempty, or as a non-organization entry of the
account listing. -/
theorem no_account_loss_amended (ds : DataSource) (b : Auditor)
    (hrun : Run ds NewAuditor = .ok b) :
    (Map.keys b.Users).Nodup ∧
    (∀ repos repo, ds.fetchAllRepos = .ok repos → repo ∈ repos →
      repo.AccountType = AccountTypeUser →
      ∃ u, Map.find b.Users repo.AccountName = some u) ∧
    (∀ repos repo teams team trs ms m,
      ds.fetchAllRepos = .ok repos → repo ∈ repos →
      repo.AccountType = AccountTypeOrg →
      ds.fetchTeamsForOrg repo.AccountName = .ok teams → team ∈ teams →
      ds.fetchReposForTeam repo.AccountName team.Name = .ok trs → trs ≠ [] →
      ds.fetchMembersForTeam repo.AccountName team.Name = .ok ms → m ∈ ms →
      ∃ u, Map.find b.Users m.User.Name = some u) ∧
    (∀ accts acc, ds.fetchAccounts = .ok accts → acc ∈ accts →
      acc.IsOrg = false → ∃ u, Map.find b.Users acc.Name = some u) := by
  obtain ⟨a1, a2, h1, h2, h3⟩ := run_decomp hrun
  obtain ⟨repos1, hf1, ha1⟩ := auditAllRepos_ok h1
  have hs12 : Steps a1 a2 := steps_auditOrgs h2
  have hs23 : Steps a2 b := steps_auditRemainingAccounts h3
  have hs1b : Steps a1 b := steps_trans hs12 hs23
  refine ⟨?_, ?_, ?_, ?_⟩
  · have hnil : (Map.keys NewAuditor.Users).Nodup := by
      simp [NewAuditor, Map.keys]
    exact (steps_preserved (steps_Run hrun)).2.2 hnil
  · intro repos repo hfetch hmem htype
    rw [hfetch] at hf1
    injection hf1 with hf1
    subst hf1
    have hne : ¬ repo.AccountType = AccountTypeOrg := by
      rw [htype]
      intro hcontra
      exact absurd hcontra (by decide)
    obtain ⟨u, r, hu, _, _⟩ := stage1_user_admin repos NewAuditor repo hmem hne
    rw [← ha1] at hu
    exact user_key_steps hs1b hu
  · intro repos repo teams team trs ms m hfetch hmem htype hteams hteam htrs hne hms hm
    rw [hfetch] at hf1
    injection hf1 with hf1
    subst hf1
    obtain ⟨o, ho⟩ := stage1_org_present repos NewAuditor repo hmem htype
    rw [← ha1] at ho
    have hpair : (repo.AccountName, o) ∈ a1.Orgs := Map.find_mem _ _ _ ho
    have h2list : auditOrgsList ds a1.Orgs a1 = .ok a2 := h2
    obtain ⟨teams1, s, t, hteams1, has, hts, htb⟩ := auditOrgsList_visit h2list hpair
    rw [hteams] at hteams1
    injection hteams1 with hteams1
    subst hteams1
    obtain ⟨s2, t2, hss2, hteamok, ht2t⟩ := auditTeams_visit hts hteam
    obtain ⟨u, hu⟩ := auditTeam_member_key hteamok htrs hne hms hm
    exact user_key_steps (steps_trans ht2t (steps_trans htb hs23)) hu
  · intro accts acc hfetch hmem hOrg
    obtain ⟨accts1, hf3, hb⟩ := auditRemainingAccounts_ok h3
    rw [hfetch] at hf3
    injection hf3 with hf3
    subst hf3
    subst hb
    exact stage3_account_key accts a2 acc hmem hOrg

/-- Witness for the amended C6: at an input containing an account of each of
the three kinds, `alice` (repository owner), `bob` (member of a team with one
grant) and `carol` (listed account) are all present, and the key list has no
duplicates. -/
theorem no_account_loss_amended_witness :
    (Map.keys (runResult dsC6w).Users).Nodup ∧
    (∃ u, Map.find (runResult dsC6w).Users "alice" = some u) ∧
    (∃ u, Map.find (runResult dsC6w).Users "bob" = some u) ∧
    (∃ u, Map.find (runResult dsC6w).Users "carol" = some u) := by
  have h := no_account_loss_amended dsC6w (runResult dsC6w) (by rfl)
  refine ⟨h.1, ?_, ?_, ?_⟩
  · exact h.2.1 [repoC6w1, repoC6w2] repoC6w1 rfl (by simp) rfl
  · exact h.2.2.1 [repoC6w1, repoC6w2] repoC6w2 [teamC6w] teamC6w [trC6w]
      [memberC6w] memberC6w rfl (by simp) rfl rfl (by simp) rfl (by simp) rfl (by simp)
  · exact h.2.2.2 [acctC6w] acctC6w rfl (by simp) rfl

end DTRAudit
